import Mathlib

/-!
Verification development for the CDC test-case generator (`src/App.py`).

Strings are modelled as `List Char`.  The Python string primitives the
program uses (`re.sub(r"\s+", " ", ·)`, `str.strip`, `str.endswith`,
`str.split`, `str.lower`, `str.capitalize`) are given explicit
character-level models below, and each pipeline function of `App.py`
(`clean_rule`, `extract_pdc_from_text`, `extract_business_rules`,
`generate_pdc_from_rule`, `compare_rules_pdc`, `create_test_case`, and the
tab-5 generation loop) is translated to a Lean definition.  External
collaborators (the spaCy model, the Azure OpenAI client, Python's `re`
engine where it is applied to free-form service responses) are passed in
as explicit parameters, as the specification treats them as black boxes.
-/

namespace CdcApp

/-- Strings, modelled as lists of characters. -/
abbrev Str := List Char

/-- Python's `\s` character class (ASCII part), as used by `re.sub`,
`str.strip()` and `str.split()`. -/
def pySpace (c : Char) : Bool :=
  c == ' ' || c == '\t' || c == '\n' || c == '\r' || c == '\x0b' || c == '\x0c'

/-- Pointwise part of `re.sub(r"\s+", " ", s)`: every whitespace character
becomes a plain space. -/
def toSp (c : Char) : Char := if pySpace c then ' ' else c

/-- Collapse adjacent pairs of plain spaces.  Composed with `List.map toSp`
this is exactly `re.sub(r"\s+", " ", s)`: each maximal whitespace run
becomes a single space. -/
def dedupSp : Str → Str
  | [] => []
  | c :: cs =>
    if c == ' ' && (dedupSp cs).head? == some ' ' then dedupSp cs
    else c :: dedupSp cs

/-- `re.sub(r"\s+", " ", s)` from `clean_rule` (App.py line 163). -/
def collapseWs (l : Str) : Str := dedupSp (l.map toSp)

/-- Left half of Python `str.strip()`. -/
def lstrip (l : Str) : Str := l.dropWhile pySpace

/-- Right half of Python `str.strip()`. -/
def rstrip (l : Str) : Str := (l.reverse.dropWhile pySpace).reverse

/-- Python `str.strip()` (no argument): remove leading and trailing
whitespace. -/
def pstrip (l : Str) : Str := rstrip (lstrip l)

/-- Python `s.endswith('.')`. -/
def endsDot (l : Str) : Bool := l.getLast? == some '.'

/-- The `if not rule_text.endswith('.'): rule_text += '.'` step of
`clean_rule` (App.py lines 164-165). -/
def ensureDot (l : Str) : Str := if endsDot l then l else l ++ ['.']

/-- `clean_rule` (App.py lines 161-166): collapse whitespace runs, strip,
then append a period when the text does not already end with one. -/
def clean_rule (l : Str) : Str := ensureDot (pstrip (collapseWs l))

/-- No two adjacent whitespace characters occur in the string. -/
def noAdjWs : Str → Bool
  | [] => true
  | [_] => true
  | c :: d :: cs => !(pySpace c && pySpace d) && noAdjWs (d :: cs)

/-- "Internal whitespace runs are collapsed to single spaces": every
whitespace character is a plain space, and no two of them are adjacent. -/
def wsCollapsed (l : Str) : Bool :=
  l.all (fun c => !pySpace c || c == ' ') && noAdjWs l

/-- The string neither starts nor ends with whitespace. -/
def trimmed (l : Str) : Bool :=
  (match l.head? with | none => true | some c => !pySpace c) &&
  (match l.getLast? with | none => true | some c => !pySpace c)

/-- The string ends with exactly one period: its last character is `'.'`
and the character before it (if any) is not. -/
def endsOneDot (l : Str) : Bool := endsDot l && !(endsDot l.dropLast)

/-! ### Basic lemmas about the character-level helpers -/

theorem mem_dedupSp {a : Char} : ∀ {l : Str}, a ∈ dedupSp l → a ∈ l := by
  intro l
  induction l with
  | nil => simp [dedupSp]
  | cons c cs ih =>
    simp only [dedupSp]
    by_cases hsp : (c == ' ' && (dedupSp cs).head? == some ' ') = true
    · rw [if_pos hsp]
      intro h1
      exact List.mem_cons_of_mem c (ih h1)
    · rw [if_neg hsp]
      intro h1
      rcases List.mem_cons.1 h1 with h2 | h2
      · exact h2 ▸ List.mem_cons_self c cs
      · exact List.mem_cons_of_mem c (ih h2)

theorem head?_dedupSp (c : Char) (cs : Str) :
    (dedupSp (c :: cs)).head? = some c := by
  simp only [dedupSp]
  by_cases hsp : (c == ' ' && (dedupSp cs).head? == some ' ') = true
  · rw [if_pos hsp]
    simp only [Bool.and_eq_true] at hsp
    have hc' : c = ' ' := eq_of_beq hsp.1
    have hh' : (dedupSp cs).head? = some ' ' := eq_of_beq hsp.2
    rw [hh', hc']
  · rw [if_neg hsp]
    rfl

/-- Whitespace characters survive `dedupSp` only as members of the input. -/
theorem allSpacesBlank_dedupSp {l : Str}
    (h : ∀ c ∈ l, pySpace c = true → c = ' ') :
    ∀ c ∈ dedupSp l, pySpace c = true → c = ' ' :=
  fun c hc => h c (mem_dedupSp hc)

/-- After mapping `toSp`, every whitespace character is a plain space. -/
theorem allSpacesBlank_map_toSp (l : Str) :
    ∀ c ∈ l.map toSp, pySpace c = true → c = ' ' := by
  intro c hc hws
  rcases List.mem_map.1 hc with ⟨a, _, ha⟩
  by_cases h : pySpace a = true
  · rw [← ha]
    simp [toSp, h]
  · rw [Bool.not_eq_true] at h
    have hca : c = a := by
      rw [← ha]
      simp [toSp, h]
    rw [hca] at hws
    simp [h] at hws

theorem noAdjWs_tail {c : Char} {cs : Str} (h : noAdjWs (c :: cs) = true) :
    noAdjWs cs = true := by
  cases cs with
  | nil => rfl
  | cons d ds =>
    simp only [noAdjWs, Bool.and_eq_true] at h
    exact h.2

/-- If every whitespace character of `l` is a plain space, `dedupSp l`
contains no two adjacent whitespace characters. -/
theorem noAdjWs_dedupSp {l : Str}
    (h : ∀ c ∈ l, pySpace c = true → c = ' ') :
    noAdjWs (dedupSp l) = true := by
  induction l with
  | nil => rfl
  | cons c cs ih =>
    have hcs : ∀ x ∈ cs, pySpace x = true → x = ' ' :=
      fun x hx => h x (List.mem_cons_of_mem c hx)
    have ih' := ih hcs
    simp only [dedupSp]
    by_cases hsp : (c == ' ' && (dedupSp cs).head? == some ' ') = true
    · rw [if_pos hsp]
      exact ih'
    · rw [if_neg hsp]
      cases hd : dedupSp cs with
      | nil => rfl
      | cons d ds =>
        rw [hd] at ih'
        simp only [noAdjWs, Bool.and_eq_true]
        refine ⟨?_, ih'⟩
        by_cases hpc : pySpace c = true
        · by_cases hpd : pySpace d = true
          · exfalso
            have hc' : c = ' ' := h c (List.mem_cons_self c cs) hpc
            have hd' : d = ' ' :=
              hcs d (mem_dedupSp (hd ▸ List.mem_cons_self d ds)) hpd
            apply hsp
            rw [hd, hc', hd']
            simp
          · simp [hpd]
        · simp [hpc]

/-- A string with no two adjacent whitespace characters is a fixed point of
`dedupSp`. -/
theorem dedupSp_eq_self {l : Str} (h : noAdjWs l = true) : dedupSp l = l := by
  induction l with
  | nil => rfl
  | cons c cs ih =>
    have ih' := ih (noAdjWs_tail h)
    simp only [dedupSp, ih']
    cases cs with
    | nil => simp
    | cons d ds =>
      simp only [noAdjWs, Bool.and_eq_true] at h
      have hcond : (c == ' ' && ((d :: ds : Str).head? == some ' ')) = false := by
        by_contra hcon
        simp only [Bool.not_eq_false, Bool.and_eq_true] at hcon
        have hc := eq_of_beq hcon.1
        have hd : d = ' ' := by
          have := eq_of_beq hcon.2
          simpa using this
        rw [hc, hd] at h
        simp [pySpace] at h
      rw [hcond]
      simp

theorem noAdjWs_drop {t w : Str} (h : noAdjWs (t ++ w) = true) :
    noAdjWs w = true := by
  induction t with
  | nil => exact h
  | cons c cs ih => exact ih (noAdjWs_tail h)

theorem noAdjWs_of_append_left {w t : Str} (h : noAdjWs (w ++ t) = true) :
    noAdjWs w = true := by
  induction w with
  | nil => rfl
  | cons c cs ih =>
    cases cs with
    | nil => rfl
    | cons d ds =>
      simp only [List.cons_append, noAdjWs, Bool.and_eq_true] at h ⊢
      exact ⟨h.1, ih h.2⟩

theorem noAdjWs_append_singleton {w : Str} {a : Char}
    (hw : noAdjWs w = true) (ha : pySpace a = false) :
    noAdjWs (w ++ [a]) = true := by
  induction w with
  | nil => rfl
  | cons c cs ih =>
    cases cs with
    | nil =>
      simp only [List.cons_append, List.nil_append, noAdjWs, Bool.and_eq_true]
      refine ⟨by simp [ha], ?_⟩
      trivial
    | cons d ds =>
      simp only [noAdjWs, Bool.and_eq_true] at hw
      simp only [List.cons_append, noAdjWs, Bool.and_eq_true]
      exact ⟨hw.1, ih hw.2⟩

/-- `dropWhile` decomposition: the input is a dropped prefix (all
satisfying the predicate) followed by the result. -/
theorem dropWhile_decomp (p : Char → Bool) :
    ∀ l : Str, ∃ t, l = t ++ l.dropWhile p ∧ ∀ c ∈ t, p c = true := by
  intro l
  induction l with
  | nil =>
    refine ⟨[], rfl, ?_⟩
    intro c hc
    cases hc
  | cons c cs ih =>
    by_cases h : p c = true
    · rcases ih with ⟨t, ht, hall⟩
      refine ⟨c :: t, ?_, ?_⟩
      · simp only [List.dropWhile, h, List.cons_append]
        rw [← ht]
      · intro x hx
        rcases List.mem_cons.1 hx with h1 | h1
        · exact h1 ▸ h
        · exact hall x h1
    · refine ⟨[], ?_, ?_⟩
      · simp only [List.dropWhile]
        rw [Bool.not_eq_true] at h
        rw [h]
        rfl
      · intro c hc
        cases hc

theorem head?_dropWhile (p : Char → Bool) :
    ∀ l : Str, ∀ c, (l.dropWhile p).head? = some c → p c = false := by
  intro l
  induction l with
  | nil => intro c h; simp [List.dropWhile] at h
  | cons a as ih =>
    intro c h
    simp only [List.dropWhile] at h
    by_cases ha : p a = true
    · rw [ha] at h; exact ih c h
    · rw [Bool.not_eq_true] at ha
      rw [ha] at h
      simp only [List.head?] at h
      cases h
      exact ha

theorem dropWhile_eq_self_of_head (p : Char → Bool) (l : Str)
    (h : ∀ c, l.head? = some c → p c = false) : l.dropWhile p = l := by
  cases l with
  | nil => rfl
  | cons c cs =>
    have := h c rfl
    simp only [List.dropWhile, this]

/-! ### Structural facts about `collapseWs`, `pstrip` and `ensureDot` -/

theorem allBlank_collapseWs (l : Str) :
    ∀ c ∈ collapseWs l, pySpace c = true → c = ' ' :=
  fun c hc => allSpacesBlank_map_toSp l c (mem_dedupSp hc)

theorem noAdjWs_collapseWs (l : Str) : noAdjWs (collapseWs l) = true :=
  noAdjWs_dedupSp (allSpacesBlank_map_toSp l)

theorem lstrip_decomp (l : Str) :
    ∃ t, l = t ++ lstrip l ∧ ∀ c ∈ t, pySpace c = true :=
  dropWhile_decomp pySpace l

theorem rstrip_decomp (l : Str) :
    ∃ t, l = rstrip l ++ t ∧ ∀ c ∈ t, pySpace c = true := by
  rcases dropWhile_decomp pySpace l.reverse with ⟨t, ht, hall⟩
  refine ⟨t.reverse, ?_, ?_⟩
  · have : l.reverse.reverse = (t ++ l.reverse.dropWhile pySpace).reverse := by
      rw [← ht]
    rw [List.reverse_reverse, List.reverse_append] at this
    exact this
  · intro c hc
    exact hall c (List.mem_reverse.1 hc)

theorem head?_lstrip (l : Str) {c : Char} (h : (lstrip l).head? = some c) :
    pySpace c = false :=
  head?_dropWhile pySpace l c h

theorem getLast?_rstrip (l : Str) {c : Char} (h : (rstrip l).getLast? = some c) :
    pySpace c = false := by
  apply head?_dropWhile pySpace l.reverse c
  rw [← List.getLast?_reverse]
  exact h

theorem mem_lstrip {l : Str} {c : Char} (h : c ∈ lstrip l) : c ∈ l := by
  rcases lstrip_decomp l with ⟨t, ht, -⟩
  rw [ht]
  exact List.mem_append_right t h

theorem mem_rstrip {l : Str} {c : Char} (h : c ∈ rstrip l) : c ∈ l := by
  rcases rstrip_decomp l with ⟨t, ht, -⟩
  rw [ht]
  exact List.mem_append_left t h

theorem mem_pstrip {l : Str} {c : Char} (h : c ∈ pstrip l) : c ∈ l :=
  mem_lstrip (mem_rstrip h)

theorem head?_pstrip (l : Str) {c : Char} (h : (pstrip l).head? = some c) :
    pySpace c = false := by
  rcases rstrip_decomp (lstrip l) with ⟨t, ht, -⟩
  apply head?_lstrip l
  rw [ht]
  cases hp : pstrip l with
  | nil => rw [hp] at h; cases h
  | cons d ds =>
    rw [hp] at h
    have hd : d = c := by
      simpa using h
    unfold pstrip at hp
    rw [hp, hd, List.cons_append]
    rfl

theorem getLast?_pstrip (l : Str) {c : Char} (h : (pstrip l).getLast? = some c) :
    pySpace c = false :=
  getLast?_rstrip (lstrip l) h

theorem noAdjWs_lstrip {l : Str} (h : noAdjWs l = true) :
    noAdjWs (lstrip l) = true := by
  rcases lstrip_decomp l with ⟨t, ht, -⟩
  exact noAdjWs_drop (ht ▸ h)

theorem noAdjWs_rstrip {l : Str} (h : noAdjWs l = true) :
    noAdjWs (rstrip l) = true := by
  rcases rstrip_decomp l with ⟨t, ht, -⟩
  exact noAdjWs_of_append_left (ht ▸ h)

theorem noAdjWs_pstrip {l : Str} (h : noAdjWs l = true) :
    noAdjWs (pstrip l) = true :=
  noAdjWs_rstrip (noAdjWs_lstrip h)

theorem getLast?_ensureDot (l : Str) : (ensureDot l).getLast? = some '.' := by
  unfold ensureDot
  by_cases h : endsDot l = true
  · rw [if_pos h]
    unfold endsDot at h
    exact eq_of_beq h
  · rw [Bool.not_eq_true] at h
    rw [if_neg (by simp [h])]
    exact List.getLast?_concat l

theorem mem_ensureDot {l : Str} {c : Char} (h : c ∈ ensureDot l) :
    c ∈ l ∨ c = '.' := by
  unfold ensureDot at h
  by_cases hd : endsDot l = true
  · rw [if_pos hd] at h
    exact Or.inl h
  · rw [Bool.not_eq_true] at hd
    rw [if_neg (by simp [hd])] at h
    rcases List.mem_append.1 h with h1 | h1
    · exact Or.inl h1
    · exact Or.inr (by simpa using h1)

theorem noAdjWs_ensureDot {l : Str} (h : noAdjWs l = true) :
    noAdjWs (ensureDot l) = true := by
  unfold ensureDot
  by_cases hd : endsDot l = true
  · rw [if_pos hd]
    exact h
  · rw [Bool.not_eq_true] at hd
    rw [if_neg (by simp [hd])]
    exact noAdjWs_append_singleton h (by decide)

theorem head?_ensureDot (l : Str) {c : Char} (h : (ensureDot l).head? = some c) :
    l.head? = some c ∨ c = '.' := by
  unfold ensureDot at h
  by_cases hd : endsDot l = true
  · rw [if_pos hd] at h
    exact Or.inl h
  · rw [Bool.not_eq_true] at hd
    rw [if_neg (by simp [hd])] at h
    cases l with
    | nil =>
      simp at h
      exact Or.inr h.symm
    | cons d ds =>
      rw [List.cons_append] at h
      exact Or.inl (by simpa using h)

/-! ### Properties of `clean_rule` -/

/-- Every whitespace character of `clean_rule l` is a plain space. -/
theorem clean_rule_allBlank (l : Str) :
    ∀ c ∈ clean_rule l, pySpace c = true → c = ' ' := by
  intro c hc hws
  unfold clean_rule at hc
  rcases mem_ensureDot hc with h1 | h1
  · exact allBlank_collapseWs l c (mem_pstrip h1) hws
  · rw [h1] at hws
    cases hws

theorem clean_rule_noAdjWs (l : Str) : noAdjWs (clean_rule l) = true :=
  noAdjWs_ensureDot (noAdjWs_pstrip (noAdjWs_collapseWs l))

/-- `clean_rule` output has its internal whitespace collapsed. -/
theorem clean_rule_wsCollapsed (l : Str) : wsCollapsed (clean_rule l) = true := by
  unfold wsCollapsed
  rw [Bool.and_eq_true]
  constructor
  · rw [List.all_eq_true]
    intro c hc
    by_cases h : pySpace c = true
    · have := clean_rule_allBlank l c hc h
      simp [this]
    · rw [Bool.not_eq_true] at h
      simp [h]
  · exact clean_rule_noAdjWs l

/-- `clean_rule` output ends with a period. -/
theorem clean_rule_getLast? (l : Str) : (clean_rule l).getLast? = some '.' :=
  getLast?_ensureDot _

/-- `clean_rule` output neither starts nor ends with whitespace. -/
theorem clean_rule_trimmed (l : Str) : trimmed (clean_rule l) = true := by
  unfold trimmed
  rw [Bool.and_eq_true]
  constructor
  · cases hh : (clean_rule l).head? with
    | none => rfl
    | some c =>
      unfold clean_rule at hh
      rcases head?_ensureDot _ hh with h1 | h1
      · have := head?_pstrip (collapseWs l) h1
        simp [this]
      · rw [h1]
        decide
  · rw [clean_rule_getLast? l]
    decide

theorem map_toSp_eq_self {l : Str}
    (h : ∀ c ∈ l, pySpace c = true → c = ' ') : l.map toSp = l := by
  induction l with
  | nil => rfl
  | cons c cs ih =>
    have hc : toSp c = c := by
      unfold toSp
      by_cases hws : pySpace c = true
      · rw [if_pos hws, h c (List.mem_cons_self c cs) hws]
      · rw [Bool.not_eq_true] at hws
        rw [if_neg (by simp [hws])]
    rw [List.map_cons, hc, ih (fun x hx => h x (List.mem_cons_of_mem c hx))]

theorem lstrip_eq_self_of_head (l : Str)
    (h : ∀ c, l.head? = some c → pySpace c = false) : lstrip l = l :=
  dropWhile_eq_self_of_head pySpace l h

theorem rstrip_eq_self_of_getLast (l : Str)
    (h : ∀ c, l.getLast? = some c → pySpace c = false) : rstrip l = l := by
  unfold rstrip
  rw [dropWhile_eq_self_of_head pySpace l.reverse
    (fun c hc => h c (by rw [← List.head?_reverse]; exact hc))]
  exact List.reverse_reverse l

/-- Cleaner idempotence: `clean_rule` is a no-op on its own output. -/
theorem clean_rule_idem (x : Str) : clean_rule (clean_rule x) = clean_rule x := by
  set y := clean_rule x with hy
  have hblank : ∀ c ∈ y, pySpace c = true → c = ' ' := clean_rule_allBlank x
  have hmap : y.map toSp = y := map_toSp_eq_self hblank
  have hdedup : dedupSp y = y := dedupSp_eq_self (clean_rule_noAdjWs x)
  have hcoll : collapseWs y = y := by
    unfold collapseWs
    rw [hmap, hdedup]
  have hlast : y.getLast? = some '.' := clean_rule_getLast? x
  have hls : lstrip y = y := by
    apply lstrip_eq_self_of_head
    intro c hc
    have ht := clean_rule_trimmed x
    unfold trimmed at ht
    rw [Bool.and_eq_true] at ht
    rw [← hy] at ht
    rw [hc] at ht
    have := ht.1
    simpa using this
  have hrs : rstrip y = y := by
    apply rstrip_eq_self_of_getLast
    intro c hc
    rw [hlast] at hc
    cases hc
    decide
  have hstrip : pstrip y = y := by
    unfold pstrip
    rw [hls, hrs]
  have hdot : ensureDot y = y := by
    unfold ensureDot
    rw [if_pos (by unfold endsDot; rw [hlast]; rfl)]
  calc clean_rule y = ensureDot (pstrip (collapseWs y)) := rfl
    _ = y := by rw [hcoll, hstrip, hdot]

/-! ### Claim C1 -/

/-- C1 counterexample: the Cleaner does **not** always end with exactly one
trailing period.  On the non-empty input `"x.."` it returns `"x.."`, whose
last two characters are both periods. -/
theorem C1_counterexample :
    ( "x..").data ≠ [] ∧ clean_rule ( "x..").data = ( "x..").data ∧
      endsOneDot (clean_rule ( "x..").data) = false := by
  refine ⟨by decide, by decide, by decide⟩

/-- C1 (amended): for every non-empty string `x`, `clean_rule` is
idempotent, its result has internal whitespace runs collapsed to single
spaces, is trimmed, and ends with a trailing period — but not necessarily
with *exactly one* trailing period (an input already ending in several
periods keeps them, see the counterexample). -/
theorem C1_cleaner_amended (x : Str) (_hx : x ≠ []) :
    clean_rule (clean_rule x) = clean_rule x ∧
    wsCollapsed (clean_rule x) = true ∧
    trimmed (clean_rule x) = true ∧
    (clean_rule x).getLast? = some '.' :=
  ⟨clean_rule_idem x, clean_rule_wsCollapsed x, clean_rule_trimmed x,
    clean_rule_getLast? x⟩

/-- C1 witness: the amended Cleaner theorem applied to the concrete
non-empty input `" a\tb  c"`. -/
theorem C1_cleaner_witness :
    clean_rule (clean_rule ( " a\tb  c").data) = clean_rule ( " a\tb  c").data ∧
    wsCollapsed (clean_rule ( " a\tb  c").data) = true ∧
    trimmed (clean_rule ( " a\tb  c").data) = true ∧
    (clean_rule ( " a\tb  c").data).getLast? = some '.' :=
  C1_cleaner_amended ( " a\tb  c").data (by decide)

/-! ### Python `str.split()` word counting and `str.lower`/`str.capitalize` -/

/-- Number of words of Python `s.split()` (maximal runs of non-whitespace),
i.e. `len(s.split())`.  The boolean argument records whether the previous
character belonged to a word. -/
def wcAux : Bool → Str → ℕ
  | _, [] => 0
  | inWord, c :: cs =>
    if pySpace c then wcAux false cs
    else (if inWord then 0 else 1) + wcAux true cs

/-- `len(s.split())` in Python. -/
def wordsCount (l : Str) : ℕ := wcAux false l

theorem wcAux_cons (b : Bool) (c : Char) (cs : Str) :
    wcAux b (c :: cs) =
      if pySpace c then wcAux false cs else (if b then 0 else 1) + wcAux true cs :=
  rfl

theorem wcAux_append {c : Char} (hc : pySpace c = false) :
    ∀ (w : Str) (b : Bool), w ≠ [] →
      (∀ d, w.getLast? = some d → pySpace d = false) →
      wcAux b (w ++ [c]) = wcAux b w := by
  intro w
  induction w with
  | nil => intro b hne _; exact absurd rfl hne
  | cons d w' ih =>
    intro b _ hlast
    cases w' with
    | nil =>
      have hd : pySpace d = false := hlast d rfl
      simp [wcAux, hd, hc]
    | cons e w'' =>
      have hlast' : ∀ x, (e :: w'').getLast? = some x → pySpace x = false := by
        intro x hx
        apply hlast
        rw [List.getLast?_cons_cons]
        exact hx
      by_cases hd : pySpace d = true
      · rw [List.cons_append, wcAux_cons, wcAux_cons, if_pos hd, if_pos hd,
          ih false (by simp) hlast']
      · rw [Bool.not_eq_true] at hd
        rw [List.cons_append, wcAux_cons b, wcAux_cons b,
          if_neg (show ¬pySpace d = true by simp [hd]),
          if_neg (show ¬pySpace d = true by simp [hd]),
          ih true (by simp) hlast']

/-- Appending the final period does not change the word count of a
non-empty stripped match. -/
theorem wordsCount_ensureDot (l : Str) (hne : pstrip l ≠ []) :
    wordsCount (ensureDot (pstrip l)) = wordsCount (pstrip l) := by
  unfold ensureDot
  by_cases h : endsDot (pstrip l) = true
  · rw [if_pos h]
  · rw [Bool.not_eq_true] at h
    rw [if_neg (by simp [h])]
    unfold wordsCount
    exact wcAux_append (by decide) (pstrip l) false hne
      (fun d hd => getLast?_pstrip l hd)

/-- Case-folding table for the characters appearing in the French texts
this program handles; models Python `str.lower()` (and, reversed,
`str.capitalize()`'s first-character uppercasing) restricted to the Latin
alphabet plus the accented letters of French. -/
def lowerPairs : List (Char × Char) :=
  [('A', 'a'), ('B', 'b'), ('C', 'c'), ('D', 'd'), ('E', 'e'), ('F', 'f'),
   ('G', 'g'), ('H', 'h'), ('I', 'i'), ('J', 'j'), ('K', 'k'), ('L', 'l'),
   ('M', 'm'), ('N', 'n'), ('O', 'o'), ('P', 'p'), ('Q', 'q'), ('R', 'r'),
   ('S', 's'), ('T', 't'), ('U', 'u'), ('V', 'v'), ('W', 'w'), ('X', 'x'),
   ('Y', 'y'), ('Z', 'z'), ('À', 'à'), ('Â', 'â'), ('Ä', 'ä'), ('Ç', 'ç'),
   ('È', 'è'), ('É', 'é'), ('Ê', 'ê'), ('Ë', 'ë'), ('Î', 'î'), ('Ï', 'ï'),
   ('Ô', 'ô'), ('Ö', 'ö'), ('Ù', 'ù'), ('Û', 'û'), ('Ü', 'ü')]

/-- Python `str.lower()`, one character. -/
def lowerFr (c : Char) : Char :=
  match lowerPairs.find? (fun p => p.1 == c) with
  | some p => p.2
  | none => c

/-- Uppercase one character (first step of Python `str.capitalize()`). -/
def upperFr (c : Char) : Char :=
  match lowerPairs.find? (fun p => p.2 == c) with
  | some p => p.1
  | none => c

/-- Python `str.capitalize()`: first character uppercased, the rest
lowercased. -/
def pyCapitalize : Str → Str
  | [] => []
  | c :: cs => upperFr c :: cs.map lowerFr

/-- `lowerFr` maps no character other than `'.'` to `'.'`, and fixes
whitespace; stated for the characters we need. -/
theorem lowerFr_eq_of_mem_snd {c x : Char} (h : lowerFr c = x)
    (hx : ∀ p ∈ lowerPairs, p.2 ≠ x) : c = x := by
  unfold lowerFr at h
  cases hf : lowerPairs.find? (fun p => p.1 == c) with
  | none => rw [hf] at h; exact h
  | some p =>
    rw [hf] at h
    exact absurd h (hx p (List.mem_of_find?_eq_some hf))

/-! ### The `re` engine for the two `extract_pdc_from_text` patterns

`extract_pdc_from_text` (App.py lines 255-270) runs `re.finditer` with
`re.IGNORECASE` over two patterns:

* P1 = `(Vérifier|S['']assurer|Contrôler|Vérification|Point de contrôle)\b.*?[\.;]`
* P2 = `(Le système doit|Il faut|Il est nécessaire de).*?(vérifier|contrôler|s'assurer)`

Both are alternations of literals followed by a lazy `.*?` up to a closing
literal/class, so their `finditer` semantics is modelled directly: scan
left to right, at each position try the alternatives in order, and on a
match continue after it (non-overlapping leftmost matching, `.` never
crossing a newline, laziness = shortest extension). -/

/-- Case-insensitive literal match at the head of `t`; returns the matched
characters (in original case) and the remainder. -/
def matchLitCI : Str → Str → Option (Str × Str)
  | [], t => some ([], t)
  | _ :: _, [] => none
  | l :: ls, c :: cs =>
    if lowerFr c == lowerFr l then
      match matchLitCI ls cs with
      | some (m, r) => some (c :: m, r)
      | none => none
    else none

/-- The `[\.;]` class of pattern P1. -/
def isSentinel (c : Char) : Bool := c == '.' || c == ';'

/-- Lazy `.*?[\.;]`: consume up to and including the first `.` or `;`,
failing on a newline (`.` does not match `\n`). -/
def scanToSentinel : Str → Option (Str × Str)
  | [] => none
  | c :: cs =>
    if isSentinel c then some ([c], cs)
    else if c == '\n' then none
    else
      match scanToSentinel cs with
      | some (m, r) => some (c :: m, r)
      | none => none

/-- The word characters of Python's `\b` (letters, digits, underscore; the
accented letters of French included). -/
def isWordChar (c : Char) : Bool :=
  ('a' ≤ c && c ≤ 'z') || ('A' ≤ c && c ≤ 'Z') || ('0' ≤ c && c ≤ '9') ||
    c == '_' || ( "àâäçèéêëîïôöùûüÀÂÄÇÈÉÊËÎÏÔÖÙÛÜ").data.contains c

/-- `\b` after a literal ending in a word character: satisfied iff the rest
starts with a non-word character or is empty. -/
def wordBoundary : Str → Bool
  | [] => true
  | c :: _ => !isWordChar c

/-- The trigger literals of pattern P1, in alternation order (the `['']`
class contains the ASCII apostrophe twice). -/
def p1Lits : List Str :=
  [( "Vérifier").data, ( "S\x27assurer").data, ( "Contrôler").data,
   ( "Vérification").data, ( "Point de contrôle").data]

/-- One P1 alternative at the current position: the literal
(case-insensitive), then the word boundary, then the lazy scan to the
first sentinel. -/
def p1Attempt (lit t : Str) : Option (Str × Str) :=
  match matchLitCI lit t with
  | some (litM, r1) =>
    match (if wordBoundary r1 then scanToSentinel r1 else none) with
    | some (mid, r2) => some (litM ++ mid, r2)
    | none => none
  | none => none

/-- Attempt pattern P1 at the current position: try each trigger literal
in order (regex alternation backtracking). -/
def p1TryLits : List Str → Str → Option (Str × Str)
  | [], _ => none
  | lit :: rest, t =>
    match p1Attempt lit t with
    | some res => some res
    | none => p1TryLits rest t

/-- The trigger literals of pattern P2, in alternation order. -/
def p2Lits : List Str :=
  [( "Le système doit").data, ( "Il faut").data, ( "Il est nécessaire de").data]

/-- The closing verb literals of pattern P2, in alternation order. -/
def p2Verbs : List Str :=
  [( "vérifier").data, ( "contrôler").data, ( "s\x27assurer").data]

/-- Try the closing verb alternation of P2 at the current position. -/
def tryVerbs : List Str → Str → Option (Str × Str)
  | [], _ => none
  | v :: vs, t =>
    match matchLitCI v t with
    | some (m, r) => some (m, r)
    | none => tryVerbs vs t

/-- Lazy `.*?(vérifier|contrôler|s'assurer)`: at each position first try
the verb alternation (shortest match wins), otherwise consume one
non-newline character. -/
def scanToVerb : Str → Option (Str × Str)
  | [] => none
  | c :: cs =>
    match tryVerbs p2Verbs (c :: cs) with
    | some (m, r) => some (m, r)
    | none =>
      if c == '\n' then none
      else
        match scanToVerb cs with
        | some (m, r) => some (c :: m, r)
        | none => none

/-- One P2 alternative at the current position: the trigger literal
(case-insensitive), then the lazy scan to the closing verb. -/
def p2Attempt (lit t : Str) : Option (Str × Str) :=
  match matchLitCI lit t with
  | some (litM, r1) =>
    match scanToVerb r1 with
    | some (mid, r2) => some (litM ++ mid, r2)
    | none => none
  | none => none

/-- Attempt pattern P2 at the current position: try each trigger literal
in order. -/
def p2TryLits : List Str → Str → Option (Str × Str)
  | [], _ => none
  | lit :: rest, t =>
    match p2Attempt lit t with
    | some res => some res
    | none => p2TryLits rest t

/-- `re.finditer`: scan left to right; at each position attempt the
pattern, and after a match continue after its end (non-overlapping).  The
fuel argument is the scan length; `finditer` supplies `t.length`, which
suffices since every step consumes at least one character. -/
def finditerGo (tryAt : Str → Option (Str × Str)) : ℕ → Str → List Str
  | 0, _ => []
  | _ + 1, [] => []
  | fuel + 1, c :: cs =>
    match tryAt (c :: cs) with
    | some (m, rest) => m :: finditerGo tryAt fuel rest
    | none => finditerGo tryAt fuel cs

def finditer (tryAt : Str → Option (Str × Str)) (t : Str) : List Str :=
  finditerGo tryAt t.length t

/-! ### `extract_pdc_from_text` -/

/-- Descending-length order used by
`sorted(·, key=lambda x: len(x), reverse=True)`. -/
def lenGe (a b : Str) : Prop := b.length ≤ a.length

instance : DecidableRel lenGe := fun a b => Nat.decLe b.length a.length

instance : IsTotal Str lenGe := ⟨fun a b => Nat.le_total b.length a.length⟩

instance : IsTrans Str lenGe := ⟨fun _ _ _ h1 h2 => Nat.le_trans h2 h1⟩

/-- `sorted(s, key=lambda x: len(x), reverse=True)` (ties in unspecified
order, as in Python's set iteration). -/
def sortByLenDesc (l : List Str) : List Str := l.insertionSort lenGe

/-- Body of the `extract_pdc_from_text` match loop: strip the match, keep
it when it has more than 3 words, appending a final period if missing. -/
def pdcStep (m : Str) : Option Str :=
  let pdc := pstrip m
  if 3 < wordsCount pdc then some (ensureDot pdc) else none

/-- `extract_pdc_from_text` (App.py lines 255-270): collect the matches of
the two patterns, strip each, keep those with more than 3 words, append a
final period if missing, deduplicate via `set`, and return sorted by
descending length. -/
def extract_pdc_from_text (text : Str) : List Str :=
  let ms := finditer (p1TryLits p1Lits) text ++ finditer (p2TryLits p2Lits) text
  sortByLenDesc (ms.filterMap pdcStep).dedup

/-! ### Shape of the matches produced by the two patterns -/

theorem matchLitCI_map : ∀ (lit t m r : Str), matchLitCI lit t = some (m, r) →
    m.map lowerFr = lit.map lowerFr := by
  intro lit
  induction lit with
  | nil =>
    intro t m r h
    simp only [matchLitCI, Option.some.injEq, Prod.mk.injEq] at h
    rw [← h.1]
  | cons l ls ih =>
    intro t m r h
    cases t with
    | nil => cases h
    | cons c cs =>
      simp only [matchLitCI] at h
      by_cases heq : (lowerFr c == lowerFr l) = true
      · rw [if_pos heq] at h
        cases hin : matchLitCI ls cs with
        | none => rw [hin] at h; cases h
        | some p =>
          rw [hin] at h
          obtain ⟨m', r'⟩ := p
          simp only [Option.some.injEq, Prod.mk.injEq] at h
          rw [← h.1, List.map_cons, List.map_cons, ih cs m' r' hin, eq_of_beq heq]
      · rw [if_neg heq] at h
        cases h

theorem scanToSentinel_shape : ∀ (t m r : Str), scanToSentinel t = some (m, r) →
    ∃ pre c, m = pre ++ [c] ∧ isSentinel c = true ∧ ∀ d ∈ pre, isSentinel d = false := by
  intro t
  induction t with
  | nil => intro m r h; cases h
  | cons c cs ih =>
    intro m r h
    simp only [scanToSentinel] at h
    by_cases hs : isSentinel c = true
    · rw [if_pos hs] at h
      simp only [Option.some.injEq, Prod.mk.injEq] at h
      refine ⟨[], c, ?_, hs, by intro d hd; cases hd⟩
      rw [← h.1]
      rfl
    · rw [if_neg hs] at h
      rw [Bool.not_eq_true] at hs
      by_cases hn : (c == '\n') = true
      · rw [if_pos hn] at h
        cases h
      · rw [if_neg hn] at h
        cases hin : scanToSentinel cs with
        | none => rw [hin] at h; cases h
        | some p =>
          rw [hin] at h
          obtain ⟨m', r'⟩ := p
          simp only [Option.some.injEq, Prod.mk.injEq] at h
          rcases ih m' r' hin with ⟨pre, x, hm', hx, hpre⟩
          refine ⟨c :: pre, x, ?_, hx, ?_⟩
          · rw [← h.1, hm']
            rfl
          · intro d hd
            rcases List.mem_cons.1 hd with h1 | h1
            · rw [h1]; exact hs
            · exact hpre d h1

theorem tryVerbs_shape : ∀ (vs : List Str) (t m r : Str),
    tryVerbs vs t = some (m, r) →
    ∃ v ∈ vs, m.map lowerFr = v.map lowerFr := by
  intro vs
  induction vs with
  | nil => intro t m r h; cases h
  | cons v vs' ih =>
    intro t m r h
    simp only [tryVerbs] at h
    cases hv : matchLitCI v t with
    | none =>
      rw [hv] at h
      rcases ih t m r h with ⟨w, hw, hmap⟩
      exact ⟨w, List.mem_cons_of_mem v hw, hmap⟩
    | some p =>
      rw [hv] at h
      obtain ⟨m', r'⟩ := p
      simp only [Option.some.injEq, Prod.mk.injEq] at h
      exact ⟨v, List.mem_cons_self v vs', h.1 ▸ matchLitCI_map v t m' r' hv⟩

theorem scanToVerb_shape : ∀ (t m r : Str), scanToVerb t = some (m, r) →
    ∃ pre vm, m = pre ++ vm ∧ ∃ v ∈ p2Verbs, vm.map lowerFr = v.map lowerFr := by
  intro t
  induction t with
  | nil => intro m r h; cases h
  | cons c cs ih =>
    intro m r h
    simp only [scanToVerb] at h
    cases hv : tryVerbs p2Verbs (c :: cs) with
    | some p =>
      rw [hv] at h
      obtain ⟨m', r'⟩ := p
      simp only [Option.some.injEq, Prod.mk.injEq] at h
      rcases tryVerbs_shape p2Verbs (c :: cs) m' r' hv with ⟨v, hvmem, hmap⟩
      exact ⟨[], m, by simp, v, hvmem, h.1 ▸ hmap⟩
    | none =>
      rw [hv] at h
      by_cases hn : (c == '\n') = true
      · rw [if_pos hn] at h
        cases h
      · rw [if_neg hn] at h
        cases hin : scanToVerb cs with
        | none => rw [hin] at h; cases h
        | some p =>
          rw [hin] at h
          obtain ⟨m', r'⟩ := p
          simp only [Option.some.injEq, Prod.mk.injEq] at h
          rcases ih m' r' hin with ⟨pre, vm, hm', v, hvmem, hmap⟩
          refine ⟨c :: pre, vm, ?_, v, hvmem, hmap⟩
          rw [← h.1, hm']
          rfl

theorem p1Attempt_shape (lit t m r : Str) (h : p1Attempt lit t = some (m, r)) :
    ∃ litM mid, m = litM ++ mid ∧
      litM.map lowerFr = lit.map lowerFr ∧
      ∃ pre c, mid = pre ++ [c] ∧ isSentinel c = true ∧
        ∀ d ∈ pre, isSentinel d = false := by
  unfold p1Attempt at h
  split at h
  · rename_i litM r1 hlit
    split at h
    · rename_i mid r2 hscan
      have hs : scanToSentinel r1 = some (mid, r2) := by
        by_cases hb : wordBoundary r1 = true
        · rw [if_pos hb] at hscan
          exact hscan
        · rw [Bool.not_eq_true] at hb
          rw [if_neg (by simp [hb])] at hscan
          cases hscan
      simp only [Option.some.injEq, Prod.mk.injEq] at h
      rcases scanToSentinel_shape r1 mid r2 hs with ⟨pre, c, hmid, hc, hpre⟩
      exact ⟨litM, mid, h.1.symm, matchLitCI_map lit t litM r1 hlit,
        pre, c, hmid, hc, hpre⟩
    · cases h
  · cases h

theorem p1TryLits_shape : ∀ (lits : List Str) (t m r : Str),
    p1TryLits lits t = some (m, r) →
    ∃ lit ∈ lits, ∃ litM mid, m = litM ++ mid ∧
      litM.map lowerFr = lit.map lowerFr ∧
      ∃ pre c, mid = pre ++ [c] ∧ isSentinel c = true ∧
        ∀ d ∈ pre, isSentinel d = false := by
  intro lits
  induction lits with
  | nil => intro t m r h; cases h
  | cons lit rest ih =>
    intro t m r h
    simp only [p1TryLits] at h
    cases hat : p1Attempt lit t with
    | none =>
      rw [hat] at h
      rcases ih t m r h with ⟨l, hl, hrest⟩
      exact ⟨l, List.mem_cons_of_mem lit hl, hrest⟩
    | some p =>
      rw [hat] at h
      obtain ⟨m', r'⟩ := p
      simp only [Option.some.injEq, Prod.mk.injEq] at h
      refine ⟨lit, List.mem_cons_self lit rest, ?_⟩
      have h' : p1Attempt lit t = some (m, r) := by
        rw [hat, h.1, h.2]
      exact p1Attempt_shape lit t m r h'

theorem p2Attempt_shape (lit t m r : Str) (h : p2Attempt lit t = some (m, r)) :
    ∃ w vm, m = w ++ vm ∧ ∃ v ∈ p2Verbs, vm.map lowerFr = v.map lowerFr := by
  unfold p2Attempt at h
  split at h
  · rename_i litM r1 hlit
    split at h
    · rename_i mid r2 hscan
      simp only [Option.some.injEq, Prod.mk.injEq] at h
      rcases scanToVerb_shape r1 mid r2 hscan with ⟨pre, vm, hmid, v, hv, hmap⟩
      refine ⟨litM ++ pre, vm, ?_, v, hv, hmap⟩
      rw [← h.1, hmid, List.append_assoc]
    · cases h
  · cases h

theorem p2TryLits_shape : ∀ (lits : List Str) (t m r : Str),
    p2TryLits lits t = some (m, r) →
    ∃ w vm, m = w ++ vm ∧ ∃ v ∈ p2Verbs, vm.map lowerFr = v.map lowerFr := by
  intro lits
  induction lits with
  | nil => intro t m r h; cases h
  | cons lit rest ih =>
    intro t m r h
    simp only [p2TryLits] at h
    cases hat : p2Attempt lit t with
    | none =>
      rw [hat] at h
      exact ih t m r h
    | some p =>
      rw [hat] at h
      obtain ⟨m', r'⟩ := p
      simp only [Option.some.injEq, Prod.mk.injEq] at h
      apply p2Attempt_shape lit t m r
      rw [hat, h.1, h.2]

theorem finditerGo_mem {tryAt : Str → Option (Str × Str)} :
    ∀ (fuel : ℕ) (t m : Str), m ∈ finditerGo tryAt fuel t →
      ∃ t' r, tryAt t' = some (m, r) := by
  intro fuel
  induction fuel with
  | zero => intro t m h; cases h
  | succ n ih =>
    intro t m h
    cases t with
    | nil => cases h
    | cons c cs =>
      simp only [finditerGo] at h
      cases htry : tryAt (c :: cs) with
      | none =>
        rw [htry] at h
        exact ih cs m h
      | some p =>
        rw [htry] at h
        obtain ⟨m', rest⟩ := p
        rcases List.mem_cons.1 h with h1 | h1
        · exact ⟨c :: cs, rest, by rw [htry, h1]⟩
        · exact ih rest m h1

/-! ### The two facts about raw matches that drive the C5 proof -/

theorem isSentinel_not_space {c : Char} (h : isSentinel c = true) :
    pySpace c = false := by
  unfold isSentinel at h
  simp only [Bool.or_eq_true, beq_iff_eq] at h
  rcases h with h | h <;> subst h <;> decide

theorem lowerFr_pySpace {d : Char} (h : pySpace d = true) : lowerFr d = d := by
  unfold pySpace at h
  simp only [Bool.or_eq_true, beq_iff_eq] at h
  rcases h with ((((h | h) | h) | h) | h) | h <;> subst h <;> decide

theorem lowerFr_dot : lowerFr '.' = '.' := by decide

theorem pySpace_false_of_lowerFr {d x : Char} (h : lowerFr d = x)
    (hx : pySpace x = false) : pySpace d = false := by
  by_contra hcon
  rw [Bool.not_eq_false] at hcon
  have hdx : d = x := (lowerFr_pySpace hcon).symm.trans h
  rw [hdx, hx] at hcon
  cases hcon

theorem ne_dot_of_lowerFr {d x : Char} (h : lowerFr d = x) (hx : x ≠ '.') :
    d ≠ '.' := by
  intro hd
  subst hd
  rw [lowerFr_dot] at h
  exact hx h.symm

/-- What `extract_pdc_from_text` needs from a raw regex match: it ends in
a non-whitespace character, and the character before the last is not a
period. -/
def goodMatch (m : Str) : Prop :=
  (∀ d, m.getLast? = some d → pySpace d = false) ∧
  (∀ d, m.dropLast.getLast? = some d → d ≠ '.')

theorem p1_match_good {t m r : Str} (h : p1TryLits p1Lits t = some (m, r)) :
    goodMatch m := by
  rcases p1TryLits_shape p1Lits t m r h with
    ⟨lit, hlit, litM, mid, hm, hmap, pre, c, hmid, hc, hpre⟩
  subst hm
  subst hmid
  constructor
  · intro d hd
    rw [← List.append_assoc, List.getLast?_concat] at hd
    injection hd with hd'
    rw [← hd']
    exact isSentinel_not_space hc
  · intro d hd
    rw [← List.append_assoc, List.dropLast_concat] at hd
    cases pre with
    | nil =>
      rw [List.append_nil] at hd
      intro hdd
      subst hdd
      have h1 : (litM.map lowerFr).getLast? = some (lowerFr '.') := by
        rw [List.getLast?_map, hd]
        rfl
      rw [hmap, lowerFr_dot] at h1
      have hno : ∀ l ∈ p1Lits, ¬((l.map lowerFr).getLast? = some '.') := by
        decide
      exact hno lit hlit h1
    | cons p ps =>
      rw [List.getLast?_append_of_ne_nil litM (by simp)] at hd
      have hdm : d ∈ p :: ps := List.mem_of_mem_getLast? (by rw [hd]; rfl)
      intro hdd
      subst hdd
      have := hpre '.' hdm
      rw [show isSentinel '.' = true from by decide] at this
      cases this

theorem p2_match_good {t m r : Str} (h : p2TryLits p2Lits t = some (m, r)) :
    goodMatch m := by
  rcases p2TryLits_shape p2Lits t m r h with ⟨w, vm, hm, v, hv, hmap⟩
  subst hm
  have hlen : vm.length = v.length := by
    have := congrArg List.length hmap
    simpa using this
  have h2 : 2 ≤ vm.length := by
    have hvlen : ∀ x ∈ p2Verbs, 2 ≤ x.length := by decide
    rw [hlen]
    exact hvlen v hv
  have hvm_ne : vm ≠ [] :=
    List.ne_nil_of_length_pos (lt_of_lt_of_le (by decide) h2)
  have hvd_ne : vm.dropLast ≠ [] := by
    apply List.ne_nil_of_length_pos
    rw [List.length_dropLast]
    omega
  constructor
  · intro d hd
    rw [List.getLast?_append_of_ne_nil w hvm_ne] at hd
    have h1 : (vm.map lowerFr).getLast? = some (lowerFr d) := by
      rw [List.getLast?_map, hd]
      rfl
    rw [hmap] at h1
    have hr : ∀ x ∈ p2Verbs, (x.map lowerFr).getLast? = some 'r' := by decide
    rw [hr v hv] at h1
    injection h1 with h1'
    exact pySpace_false_of_lowerFr h1'.symm (by decide)
  · intro d hd
    rw [List.dropLast_append_of_ne_nil w hvm_ne,
      List.getLast?_append_of_ne_nil w hvd_ne] at hd
    have h1 : ((vm.dropLast).map lowerFr).getLast? = some (lowerFr d) := by
      rw [List.getLast?_map, hd]
      rfl
    rw [List.map_dropLast, hmap, ← List.map_dropLast] at h1
    have he : ∀ x ∈ p2Verbs, ((x.dropLast).map lowerFr).getLast? = some 'e' := by
      decide
    rw [he v hv] at h1
    injection h1 with h1'
    exact ne_dot_of_lowerFr h1'.symm (by decide)

theorem matches_good {text m : Str}
    (h : m ∈ finditer (p1TryLits p1Lits) text ++ finditer (p2TryLits p2Lits) text) :
    goodMatch m := by
  rcases List.mem_append.1 h with h1 | h1
  · rcases finditerGo_mem _ _ _ h1 with ⟨t', r, ht⟩
    exact p1_match_good ht
  · rcases finditerGo_mem _ _ _ h1 with ⟨t', r, ht⟩
    exact p2_match_good ht

/-! ### Claim C5 -/

/-- Every kept entry of `extract_pdc_from_text` has more than 3 words, is
trimmed, and ends with exactly one period — given the two facts about the
raw match established above. -/
theorem pdcStep_props {m s : Str} (hgood : goodMatch m)
    (h : pdcStep m = some s) :
    3 < wordsCount s ∧ trimmed s = true ∧ endsOneDot s = true := by
  simp only [pdcStep] at h
  by_cases hw : 3 < wordsCount (pstrip m)
  · rw [if_pos hw] at h
    injection h with hs
    have hw_ne : pstrip m ≠ [] := by
      intro hnil
      rw [hnil] at hw
      simp [wordsCount, wcAux] at hw
    refine ⟨?_, ?_, ?_⟩
    · rw [← hs, wordsCount_ensureDot m hw_ne]
      exact hw
    · rw [← hs]
      unfold trimmed
      rw [Bool.and_eq_true]
      constructor
      · cases hh : (ensureDot (pstrip m)).head? with
        | none => rfl
        | some c =>
          rcases head?_ensureDot _ hh with h1 | h1
          · have := head?_pstrip m h1
            simp [this]
          · rw [h1]
            decide
      · rw [getLast?_ensureDot]
        decide
    · -- the stripped match equals `lstrip m`, since the raw match ends in
      -- a non-whitespace character
      have hrs : rstrip (lstrip m) = lstrip m := by
        apply rstrip_eq_self_of_getLast
        intro c hc
        cases hls : lstrip m with
        | nil => rw [hls] at hc; cases hc
        | cons a as =>
          apply hgood.1 c
          rcases lstrip_decomp m with ⟨t, ht, -⟩
          rw [ht, hls, List.getLast?_append_of_ne_nil t (by simp)]
          rw [hls] at hc
          exact hc
      have hps : pstrip m = lstrip m := hrs
      rw [← hs]
      unfold endsOneDot
      rw [Bool.and_eq_true]
      constructor
      · unfold endsDot
        rw [getLast?_ensureDot]
        rfl
      · unfold ensureDot
        by_cases hend : endsDot (pstrip m) = true
        · rw [if_pos hend]
          -- second-to-last character of the stripped match is not a period
          rw [Bool.not_eq_true']
          unfold endsDot
          rw [beq_eq_false_iff_ne]
          cases hdl : (pstrip m).dropLast.getLast? with
          | none => simp
          | some d =>
            have hd' : d ≠ '.' := by
              apply hgood.2
              rcases lstrip_decomp m with ⟨t, ht, -⟩
              rw [hps] at hdl
              have hdl_ne : (lstrip m).dropLast ≠ [] := by
                intro hnil
                rw [hnil] at hdl
                cases hdl
              rw [ht, List.dropLast_append_of_ne_nil t (hps ▸ hw_ne),
                List.getLast?_append_of_ne_nil t hdl_ne]
              exact hdl
            simp [hd']
        · rw [Bool.not_eq_true] at hend
          rw [if_neg (by simp [hend])]
          rw [List.dropLast_concat]
          rw [Bool.not_eq_true']
          exact hend
  · rw [if_neg hw] at h
    cases h

/-- C5 counterexample: the Control-Point Extractor does **not** collapse
internal whitespace runs: the double space inside the input survives into
the extracted control point. -/
theorem C5_counterexample :
    ( "Vérifier aa  bb cc.").data ∈
        extract_pdc_from_text ( "Vérifier aa  bb cc.").data ∧
      wsCollapsed ( "Vérifier aa  bb cc.").data = false := by
  refine ⟨by decide, by decide⟩

/-- C5 (amended): every string returned by `extract_pdc_from_text` has
more than 3 words, is trimmed, and ends with exactly one trailing period;
internal whitespace is, however, **not** collapsed (the match is kept
verbatim apart from stripping and the final period), so the full "same
normalization as a Rule" part of the claim fails. -/
theorem C5_pdc_normalization (text : Str) :
    ∀ s ∈ extract_pdc_from_text text,
      3 < wordsCount s ∧ trimmed s = true ∧ endsOneDot s = true := by
  intro s hs
  simp only [extract_pdc_from_text, sortByLenDesc] at hs
  rw [List.mem_insertionSort, List.mem_dedup] at hs
  rcases List.mem_filterMap.1 hs with ⟨m, hm, hstep⟩
  exact pdcStep_props (matches_good hm) hstep

/-- C5 witness: the amended extractor theorem applied to the concrete
document `"Vérifier aa  bb cc."` and its single extracted control
point. -/
theorem C5_pdc_witness :
    3 < wordsCount ( "Vérifier aa  bb cc.").data ∧
      trimmed ( "Vérifier aa  bb cc.").data = true ∧
      endsOneDot ( "Vérifier aa  bb cc.").data = true :=
  C5_pdc_normalization ( "Vérifier aa  bb cc.").data
    ( "Vérifier aa  bb cc.").data (by decide)

/-! ### `extract_business_rules` (heuristic mode) and claim C8 -/

/-- The keyword list of the sentence-level NLP heuristic of
`extract_business_rules` (App.py lines 132-133). -/
def ruleKeywords : List Str :=
  [( "si ").data, ( "alors").data, ( "doit").data, ( "est tenu de").data,
   ( "ne peut pas").data, ( "entraîne").data, ( "provoque").data,
   ( "peut entraîner").data, ( "doit être").data, ( "est obligatoire").data,
   ( "a le droit de").data, ( "est autorisé à").data]

/-- Sentence filter of the NLP part of `extract_business_rules`: some
keyword occurs in the lowercased sentence, and the sentence has more than
5 words (App.py lines 131-134). -/
def ruleKeep (sent : Str) : Bool :=
  ruleKeywords.any (fun k => decide (k <:+: sent.map lowerFr)) &&
    decide (5 < wordsCount sent)

/-- Heuristic branch (`use_ai=False`) of `extract_business_rules` (App.py
lines 111-137).  The four regex patterns and the spaCy sentence splitter
are external collaborators here: `regexMatches` stands for the
`match.group()` results of the four patterns' `finditer` runs (in
pattern order) and `nlpSents` for the spaCy sentence texts, `none`
modelling `nlp_model = None`.  Every candidate goes through `clean_rule`
into a `set`, which is returned sorted by descending length. -/
def extract_business_rules (regexMatches : List Str)
    (nlpSents : Option (List Str)) : List Str :=
  let rules1 := regexMatches.map clean_rule
  let rules2 :=
    match nlpSents with
    | none => []
    | some sents => (sents.filter ruleKeep).map clean_rule
  sortByLenDesc (rules1 ++ rules2).dedup

theorem sortByLenDesc_dedup (l : List Str) :
    (sortByLenDesc l.dedup).Nodup ∧ (sortByLenDesc l.dedup).Sorted lenGe :=
  ⟨(List.perm_insertionSort lenGe l.dedup).symm.nodup (List.nodup_dedup l),
   List.sorted_insertionSort lenGe l.dedup⟩

/-- C8: the heuristic Rule Extractor and the Control-Point Extractor both
return duplicate-free lists (set semantics), sorted by descending string
length (`lenGe`; ties in unspecified order). -/
theorem C8_extraction_dedup_sorted :
    (∀ (regexMatches : List Str) (nlpSents : Option (List Str)),
        (extract_business_rules regexMatches nlpSents).Nodup ∧
        (extract_business_rules regexMatches nlpSents).Sorted lenGe) ∧
    (∀ text : Str,
        (extract_pdc_from_text text).Nodup ∧
        (extract_pdc_from_text text).Sorted lenGe) := by
  constructor
  · intro regexMatches nlpSents
    exact sortByLenDesc_dedup _
  · intro text
    exact sortByLenDesc_dedup _

/-! ### `generate_pdc_from_rule` and claims C9, C10 -/

/-- Observable outcome of one `generate_pdc_from_rule` call: the returned
string and the side effects the claims are about. -/
structure GenPdcResult where
  out : Str
  errorReported : Bool
  serviceCalled : Bool
  verbPathUsed : Bool
deriving Repr, DecidableEq

/-- Outcome of the Azure OpenAI collaborator in the service-assisted
branch: no client (`setup_azure_openai` returned `None`), a failed/empty
generation (`generate_with_azure_openai` returned `None`), or a trimmed
completion text. -/
inductive SvcGen where
  | noClient : SvcGen
  | genFail : SvcGen
  | genOk (s : Str) : SvcGen
deriving Repr, DecidableEq

/-- `generate_pdc_from_rule` (App.py lines 272-301).  The spaCy model in
the session state is `nlp : Option (Str → List Str)`: `none` models the
key `'nlp'` being absent from `st.session_state` (no statement of App.py
ever assigns that key), and `some detect` a loaded model whose detected
verb-token texts on a rule are `detect rule`.  `svc` is the Azure OpenAI
collaborator. -/
def generate_pdc_from_rule (nlp : Option (Str → List Str)) (svc : SvcGen)
    (rule : Str) (use_ai : Bool) : GenPdcResult :=
  if !use_ai || nlp.isNone then
    match nlp with
    | none =>
      { out := ( "Vérifier que ").data ++ rule, errorReported := true,
        serviceCalled := false, verbPathUsed := false }
    | some detect =>
      let verbs := detect rule
      let action := verbs.headD ( "vérifier").data
      { out := pyCapitalize action ++ ( " que ").data ++ rule,
        errorReported := false, serviceCalled := false, verbPathUsed := true }
  else
    match svc with
    | .noClient =>
      { out := ( "Vérifier que ").data ++ rule, errorReported := true,
        serviceCalled := true, verbPathUsed := false }
    | .genFail =>
      { out := ( "Vérifier que ").data ++ rule, errorReported := true,
        serviceCalled := true, verbPathUsed := false }
    | .genOk s =>
      -- `return result if result else f"Vérifier que {rule}"`: an empty
      -- completion is falsy in Python and falls back too
      if s = [] then
        { out := ( "Vérifier que ").data ++ rule, errorReported := false,
          serviceCalled := true, verbPathUsed := false }
      else
        { out := s, errorReported := false, serviceCalled := true,
          verbPathUsed := false }

/-- C10: when the session state holds no NLP model under `'nlp'` — and no
statement of App.py ever assigns that key — `generate_pdc_from_rule`
takes the no-model branch for every rule and both values of `use_ai`: it
reports an error and returns exactly `"Vérifier que <rule>"` without
invoking the text-generation service or the verb-detection path. -/
theorem C10_no_model_branch (rule : Str) (use_ai : Bool) (svc : SvcGen) :
    generate_pdc_from_rule none svc rule use_ai =
      { out := ( "Vérifier que ").data ++ rule, errorReported := true,
        serviceCalled := false, verbPathUsed := false } := by
  cases use_ai <;> rfl

/-- C9: the heuristic Control-Point Generator (`use_ai=False`, model
loaded): with no detected verb it falls back to `"vérifier"`, producing
`"Vérifier que <rule>"` — in particular for the rule
`"Le client doit payer la facture."` — and with a detected verb it
returns the first one capitalized, as `"<Action> que <rule>"`. -/
theorem C9_heuristic_pdc (detect : Str → List Str) (svc : SvcGen) (rule : Str) :
    (detect rule = [] →
      (generate_pdc_from_rule (some detect) svc rule false).out =
        ( "Vérifier que ").data ++ rule) ∧
    (∀ v vs, detect rule = v :: vs →
      (generate_pdc_from_rule (some detect) svc rule false).out =
        pyCapitalize v ++ ( " que ").data ++ rule) ∧
    (detect rule = [] → rule = ( "Le client doit payer la facture.").data →
      (generate_pdc_from_rule (some detect) svc rule false).out =
        ( "Vérifier que Le client doit payer la facture.").data) := by
  have hbase : (generate_pdc_from_rule (some detect) svc rule false).out =
      pyCapitalize ((detect rule).headD ( "vérifier").data) ++
        ( " que ").data ++ rule := rfl
  refine ⟨?_, ?_, ?_⟩
  · intro h
    rw [hbase, h]
    rfl
  · intro v vs h
    rw [hbase, h]
    rfl
  · intro h hrule
    subst hrule
    rw [hbase, h]
    rfl

/-- C9 witness: concrete model detecting no verb, on the rule from the
claim. -/
theorem C9_heuristic_witness :
    (generate_pdc_from_rule (some (fun _ => [])) SvcGen.noClient
        ( "Le client doit payer la facture.").data false).out =
      ( "Vérifier que Le client doit payer la facture.").data :=
  (C9_heuristic_pdc (fun _ => []) SvcGen.noClient
    ( "Le client doit payer la facture.").data).2.2 rfl rfl

/-! ### `create_test_case`, the tab-5 loop, claims C3, C6, C7 -/

/-- Decimal digits of `n`, most significant first (fuel-based so that the
kernel can evaluate it; the fuel `n + 1` always suffices). -/
def natDigitsAux : ℕ → ℕ → List Char
  | 0, _ => []
  | fuel + 1, n =>
    if n < 10 then [Nat.digitChar n]
    else natDigitsAux fuel (n / 10) ++ [Nat.digitChar (n % 10)]

def natDigits (n : ℕ) : List Char := natDigitsAux (n + 1) n

/-- `f"CT-{index:03d}"`: "CT-" followed by the index zero-padded to a
minimum width of 3. -/
def ctId (index : ℕ) : Str :=
  ( "CT-").data ++ List.replicate (3 - (natDigits index).length) '0' ++
    natDigits index

/-- One Test Case record (§3 of the spec): the dict built by
`create_test_case`; `typ` is the "Type" field, `steps` the "Étapes" field
and `expected` the "Résultat attendu" field. -/
structure TestCase where
  ID : Str
  typ : Str
  pdc : Str
  description : Str
  steps : Str
  expected : Str
deriving Repr, DecidableEq

/-- The three heuristic description templates (App.py lines 313-317). -/
def tcTemplates (pdc : Str) : List Str :=
  [( "Le système doit satisfaire : ").data ++ pdc,
   ( "Confirmer que ").data ++ pdc,
   ( "Tester la conformité de : ").data ++ pdc]

/-- The fixed three-step boilerplate. -/
def tcSteps (pdc : Str) : Str :=
  ( "1. Préparer l\x27environnement\n2. Exécuter: ").data ++ pdc ++
    ( "\n3. Vérifier le résultat").data

/-- The fixed expected-result template. -/
def tcExpected (pdc : Str) : Str :=
  pdc ++ ( " est correctement implémenté").data

/-- The "Type" field value. -/
def tcType (is_manual : Bool) : Str :=
  if is_manual then ( "Manuel").data else ( "Auto-généré").data

/-- Outcome of the Azure OpenAI call and of the `re.search` parsing of its
free-form response in the service-assisted branch of `create_test_case`
(service and `re` engine are external collaborators): no client, a
falsy/absent completion, a parsed response carrying the stripped captured
group of each of the three field regexes (`none` = that regex did not
match), or an exception inside the `try` block. -/
inductive TcSvc where
  | noClient : TcSvc
  | noResult : TcSvc
  | parsed (desc steps expected : Option Str) : TcSvc
  | parseExn : TcSvc
deriving Repr, DecidableEq

/-- `create_test_case` (App.py lines 310-379).  `pick` is the index drawn
by `random.choice` among the three templates. -/
def create_test_case (pdc : Str) (index : ℕ) (is_manual : Bool)
    (use_ai : Bool) (svc : TcSvc) (pick : ℕ) : TestCase :=
  if !use_ai then
    { ID := ctId index, typ := tcType is_manual, pdc := pdc,
      description :=
        if is_manual then pdc else (tcTemplates pdc).getD (pick % 3) pdc,
      steps := tcSteps pdc, expected := tcExpected pdc }
  else
    match svc with
    | .parsed d s e =>
      { ID := ctId index, typ := tcType is_manual, pdc := pdc,
        description := d.getD pdc,
        steps := s.getD (tcSteps pdc),
        expected := e.getD (tcExpected pdc) }
    | _ =>
      { ID := ctId index, typ := tcType is_manual, pdc := pdc,
        description := pdc, steps := tcSteps pdc, expected := tcExpected pdc }

/-- The tab-5 "Générer les Cas de Test" loop (App.py lines 610-614):
enumerate the control points 1-based and call `create_test_case` with
`is_manual = has_pdc.startswith("Oui") and i <= len(pdc_list)`. -/
def tab5_generate (hasPdcOui : Bool) (use_ai : Bool) (pdcs : List Str)
    (svc : ℕ → TcSvc) (pick : ℕ → ℕ) : List TestCase :=
  (List.range pdcs.length).map (fun k =>
    create_test_case (pdcs.getD k []) (k + 1)
      (hasPdcOui && decide (k + 1 ≤ pdcs.length)) use_ai
      (svc (k + 1)) (pick (k + 1)))

theorem natDigitsAux_len1 {fuel n : ℕ} (hn : n < 10) (hf : 1 ≤ fuel) :
    (natDigitsAux fuel n).length = 1 := by
  cases fuel with
  | zero => omega
  | succ f => simp [natDigitsAux, hn]

theorem natDigitsAux_len2 {fuel n : ℕ} (h1 : 10 ≤ n) (hn : n < 100)
    (hf : 2 ≤ fuel) : (natDigitsAux fuel n).length = 2 := by
  cases fuel with
  | zero => omega
  | succ f =>
    have h10 : ¬n < 10 := by omega
    simp only [natDigitsAux, if_neg h10, List.length_append,
      natDigitsAux_len1 (show n / 10 < 10 by omega) (show 1 ≤ f by omega)]
    rfl

theorem natDigitsAux_len3 {fuel n : ℕ} (h1 : 100 ≤ n) (hn : n < 1000)
    (hf : 3 ≤ fuel) : (natDigitsAux fuel n).length = 3 := by
  cases fuel with
  | zero => omega
  | succ f =>
    have h10 : ¬n < 10 := by omega
    simp only [natDigitsAux, if_neg h10, List.length_append,
      natDigitsAux_len2 (show 10 ≤ n / 10 by omega)
        (show n / 10 < 100 by omega) (show 2 ≤ f by omega)]
    rfl

theorem ctId_length {i : ℕ} (h1 : 1 ≤ i) (h2 : i ≤ 999) :
    (ctId i).length = 6 := by
  have hd : (natDigits i).length = 1 ∨ (natDigits i).length = 2 ∨
      (natDigits i).length = 3 := by
    unfold natDigits
    by_cases ha : i < 10
    · exact Or.inl (natDigitsAux_len1 ha (by omega))
    · by_cases hb : i < 100
      · exact Or.inr (Or.inl (natDigitsAux_len2 (by omega) hb (by omega)))
      · exact Or.inr (Or.inr (natDigitsAux_len3 (by omega) (by omega) (by omega)))
  unfold ctId
  rw [List.length_append, List.length_append, List.length_replicate]
  rcases hd with h | h | h <;> rw [h] <;> decide

theorem create_test_case_ID (pdc : Str) (index : ℕ) (is_manual : Bool)
    (use_ai : Bool) (svc : TcSvc) (pick : ℕ) :
    (create_test_case pdc index is_manual use_ai svc pick).ID = ctId index := by
  cases use_ai <;> cases svc <;> rfl

theorem create_test_case_typ (pdc : Str) (index : ℕ) (is_manual : Bool)
    (use_ai : Bool) (svc : TcSvc) (pick : ℕ) :
    (create_test_case pdc index is_manual use_ai svc pick).typ =
      tcType is_manual := by
  cases use_ai <;> cases svc <;> rfl

/-! ### Claim C6 -/

/-- C6: in the tab-5 loop the flag is
`has_pdc.startswith("Oui") and i <= len(pdc_list)` with `i` in
`1..len(pdc_list)`; the second conjunct is true for every generated item,
so when existing PDCs were imported (`hasPdcOui = true`) every generated
Test Case has Type `"Manuel"` and manual versus auto-generated provenance
is never distinguished among them. -/
theorem C6_is_manual_always_true (use_ai : Bool) (pdcs : List Str)
    (svc : ℕ → TcSvc) (pick : ℕ → ℕ) :
    (∀ i, 1 ≤ i → i ≤ pdcs.length →
      (true && decide (i ≤ pdcs.length)) = true) ∧
    ∀ tc ∈ tab5_generate true use_ai pdcs svc pick,
      tc.typ = ( "Manuel").data := by
  constructor
  · intro i _ h2
    simp [h2]
  · intro tc htc
    simp only [tab5_generate, List.mem_map, List.mem_range] at htc
    rcases htc with ⟨k, hk, heq⟩
    rw [← heq, create_test_case_typ]
    have hle : (true && decide (k + 1 ≤ pdcs.length)) = true := by
      simp
      omega
    rw [hle]
    rfl

/-- C6 witness: the single Test Case generated from one imported PDC has
Type "Manuel". -/
theorem C6_is_manual_witness :
    (create_test_case ( "aa.").data 1 true false TcSvc.noClient 0).typ =
      ( "Manuel").data :=
  (C6_is_manual_always_true false [( "aa.").data] (fun _ => TcSvc.noClient)
      (fun _ => 0)).2
    (create_test_case ( "aa.").data 1 true false TcSvc.noClient 0) (by decide)

/-! ### Claim C7 -/

/-- C7: in every generation mode (heuristic, service-assisted and every
fallback branch) the generated IDs are `"CT-"` followed by the 1-based
index zero-padded to (at least) three digits, contiguously `1..N`. -/
theorem C7_test_case_ids (hasPdcOui use_ai : Bool) (pdcs : List Str)
    (svc : ℕ → TcSvc) (pick : ℕ → ℕ) :
    (tab5_generate hasPdcOui use_ai pdcs svc pick).map (fun tc => tc.ID) =
      (List.range pdcs.length).map (fun k => ctId (k + 1)) ∧
    ctId 1 = ( "CT-001").data ∧ ctId 2 = ( "CT-002").data ∧
    ctId 12 = ( "CT-012").data ∧ ctId 123 = ( "CT-123").data ∧
    ∀ i, 1 ≤ i → i ≤ 999 → (ctId i).length = 6 := by
  refine ⟨?_, by decide, by decide, by decide, by decide, ?_⟩
  · unfold tab5_generate
    rw [List.map_map]
    apply List.map_congr_left
    intro k _
    exact create_test_case_ID _ _ _ _ _ _
  · intro i h1 h2
    exact ctId_length h1 h2

/-- C7 witness: concrete instances of the ID format. -/
theorem C7_test_case_ids_witness :
    (ctId 5).length = 6 ∧ ctId 1 = ( "CT-001").data :=
  ⟨(C7_test_case_ids true true [] (fun _ => TcSvc.noClient)
      (fun _ => 0)).2.2.2.2.2 5 (by decide) (by decide),
   (C7_test_case_ids true true [] (fun _ => TcSvc.noClient)
      (fun _ => 0)).2.1⟩

/-! ### Claim C3 -/

/-- C3 counterexample: with `is_manual = False` and a service response none
of whose field regexes matches, the service-assisted record's Description
is the PDC verbatim, while the heuristic record draws one of the three
templates — none of which equals the PDC — so the records differ for every
possible random draw. -/
theorem C3_counterexample :
    create_test_case ( "aa.").data 1 false true (TcSvc.parsed none none none) 0 ≠
        create_test_case ( "aa.").data 1 false false TcSvc.noClient 0 ∧
    create_test_case ( "aa.").data 1 false true (TcSvc.parsed none none none) 0 ≠
        create_test_case ( "aa.").data 1 false false TcSvc.noClient 1 ∧
    create_test_case ( "aa.").data 1 false true (TcSvc.parsed none none none) 0 ≠
        create_test_case ( "aa.").data 1 false false TcSvc.noClient 2 := by
  refine ⟨by decide, by decide, by decide⟩

/-- C3 (amended): on an unparseable service response (none of the three
field regexes matches) or a parse exception, the service-assisted
generator returns the heuristic record with its Description replaced by
the PDC verbatim; the full record coincides with the heuristic one exactly
when `is_manual` is true (the heuristic Description is then the PDC too). -/
theorem C3_fallback_amended (pdc : Str) (index : ℕ) (is_manual : Bool)
    (svc : TcSvc) (pick : ℕ)
    (hsvc : svc = TcSvc.parsed none none none ∨ svc = TcSvc.parseExn) :
    create_test_case pdc index is_manual true svc pick =
      { create_test_case pdc index is_manual false TcSvc.noClient pick with
          description := pdc } ∧
    (is_manual = true →
      create_test_case pdc index is_manual true svc pick =
        create_test_case pdc index is_manual false TcSvc.noClient pick) := by
  rcases hsvc with h | h <;> subst h <;>
    exact ⟨rfl, fun hm => by subst hm; rfl⟩

/-- C3 witness: with `is_manual = True` the two records agree exactly. -/
theorem C3_fallback_witness :
    create_test_case ( "bb.").data 2 true true (TcSvc.parsed none none none) 0 =
      create_test_case ( "bb.").data 2 true false TcSvc.noClient 0 :=
  (C3_fallback_amended ( "bb.").data 2 true (TcSvc.parsed none none none) 0
    (Or.inl rfl)).2 rfl

/-! ### `compare_rules_pdc`: TF-IDF and cosine similarity, claims C2, C4

`compare_rules_pdc` (App.py lines 303-308) runs scikit-learn's
`TfidfVectorizer().fit_transform(rules + pdc_list)` followed by
`cosine_similarity` between the rule rows and the control-point rows.
With scikit-learn's defaults this means:

* each document is lowercased and tokenized by `r"(?u)\b\w\w+\b"`
  (maximal word-character runs of length ≥ 2);
* `fit` raises `ValueError("empty vocabulary…")` when no document yields
  a token;
* each document gets the vector `tf(t) * idf(t)` over the vocabulary,
  where `idf(t) = ln((1+n)/(1+df(t))) + 1` (smooth idf); the logarithm is
  transcendental, so the idf is modelled as an abstract parameter
  `idfF n df` over an arbitrary linear ordered field, constrained only by
  the positivity the real formula satisfies (`df ≤ n` gives `idf ≥ 1`);
* `cosine_similarity` L2-normalizes each row (rows of norm 0 are left
  zero, giving similarity 0) and takes dot products; it raises
  `ValueError("Found array with 0 sample(s)…")` when either side has no
  rows.

Since the square roots of the normalization are irrational, a matrix
entry is represented by the triple
`(⟨x,y⟩, ⟨x,x⟩, ⟨y,y⟩)`; the real-valued entry is
`⟨x,y⟩ / (√⟨x,x⟩ * √⟨y,y⟩)` (0 when a norm is 0), so the entry lies in
`[0,1]` iff `entryIn01` holds of the triple, and equals 1 iff
`entryEqOne` does. -/

/-- Maximal runs of characters satisfying `p`. -/
def runsBy (p : Char → Bool) : Str → List Str
  | [] => []
  | [c] => if p c then [[c]] else []
  | c :: d :: cs =>
    if p c then
      match runsBy p (d :: cs) with
      | [] => [[c]]
      | w :: ws => if p d then (c :: w) :: ws else [c] :: w :: ws
    else runsBy p (d :: cs)

/-- scikit-learn's default tokenizer: lowercase, then keep the maximal
word-character runs of length at least 2. -/
def tokenize (doc : Str) : List Str :=
  (runsBy isWordChar (doc.map lowerFr)).filter (fun t => 2 ≤ t.length)

/-- Term frequency of token `t` in a document. -/
def tf (t : Str) (doc : Str) : ℕ := (tokenize doc).count t

/-- Document frequency of token `t` over the fitted corpus. -/
def df (docs : List Str) (t : Str) : ℕ :=
  (docs.filter (fun d => decide (t ∈ tokenize d))).length

/-- The fitted vocabulary: every token of every document. -/
def vocab (docs : List Str) : Finset Str := ((docs.map tokenize).flatten).toFinset

/-- The tf-idf weight of token `t` for document `d` of the corpus. -/
def wgt {K : Type} [LinearOrderedField K] (idfF : ℕ → ℕ → K)
    (docs : List Str) (d : Str) (t : Str) : K :=
  (tf t d : K) * idfF docs.length (df docs t)

/-- One similarity-matrix entry, as the triple
(dot product, squared norm of the rule row, squared norm of the
control-point row). -/
def simTriple {K : Type} [LinearOrderedField K] (idfF : ℕ → ℕ → K)
    (docs : List Str) (d1 d2 : Str) : K × K × K :=
  (∑ t ∈ vocab docs, wgt idfF docs d1 t * wgt idfF docs d2 t,
   ∑ t ∈ vocab docs, wgt idfF docs d1 t ^ 2,
   ∑ t ∈ vocab docs, wgt idfF docs d2 t ^ 2)

/-- The real-valued entry `e.1 / (√e.2.1 * √e.2.2)` lies in `[0, 1]`. -/
def entryIn01 {K : Type} [LinearOrderedField K] (e : K × K × K) : Prop :=
  0 ≤ e.1 ∧ e.1 ^ 2 ≤ e.2.1 * e.2.2

/-- The real-valued entry `e.1 / (√e.2.1 * √e.2.2)` equals 1. -/
def entryEqOne {K : Type} [LinearOrderedField K] (e : K × K × K) : Prop :=
  0 < e.1 ∧ e.1 ^ 2 = e.2.1 * e.2.2

/-- `compare_rules_pdc` (App.py lines 303-308): fit the vectorizer over
`rules + pdc_list` (raising on an empty vocabulary), then compute the
cosine similarities of every rule row against every control-point row
(raising when either slice has 0 rows). -/
def compare_rules_pdc {K : Type} [LinearOrderedField K] (idfF : ℕ → ℕ → K)
    (rules pdc_list : List Str) : Except Str (List (List (K × K × K))) :=
  if vocab (rules ++ pdc_list) = ∅ then
    Except.error
      ( "empty vocabulary; perhaps the documents only contain stop words").data
  else if rules.length = 0 then
    Except.error ( "Found array with 0 sample(s)").data
  else if pdc_list.length = 0 then
    Except.error ( "Found array with 0 sample(s)").data
  else
    Except.ok (rules.map (fun r =>
      pdc_list.map (fun p => simTriple idfF (rules ++ pdc_list) r p)))

/-! ### Claim C2 -/

/-- C2: the Rule–PDC Matcher raises whenever either input list is empty,
for every value of the other list: either the fitted vocabulary is empty
(`fit_transform` raises) or one of the two similarity operands has zero
rows (`cosine_similarity` raises). -/
theorem C2_matcher_empty_raises {K : Type} [LinearOrderedField K]
    (idfF : ℕ → ℕ → K) (rules pdc_list : List Str)
    (h : rules = [] ∨ pdc_list = []) :
    ∃ msg, compare_rules_pdc idfF rules pdc_list = Except.error msg := by
  unfold compare_rules_pdc
  by_cases hv : vocab (rules ++ pdc_list) = ∅
  · rw [if_pos hv]
    exact ⟨_, rfl⟩
  · rw [if_neg hv]
    rcases h with h | h
    · subst h
      rw [show ([] : List Str).length = 0 from rfl, if_pos rfl]
      exact ⟨_, rfl⟩
    · subst h
      by_cases hr : rules.length = 0
      · rw [if_pos hr]
        exact ⟨_, rfl⟩
      · rw [if_neg hr, show ([] : List Str).length = 0 from rfl, if_pos rfl]
        exact ⟨_, rfl⟩

/-- C2 witness: an empty rule list against a non-empty control-point list
raises. -/
theorem C2_matcher_witness :
    (compare_rules_pdc (K := ℚ) (fun _ _ => 1) [] [( "aa.").data]).toOption
      = none := by
  rcases C2_matcher_empty_raises (K := ℚ) (fun _ _ => 1) [] [( "aa.").data]
    (Or.inl rfl) with ⟨msg, hmsg⟩
  rw [hmsg]
  rfl

/-! ### Claim C4 -/

theorem wgt_nonneg {K : Type} [LinearOrderedField K] {idfF : ℕ → ℕ → K}
    (hidf : ∀ n d, 0 < idfF n d) (docs : List Str) (d t : Str) :
    0 ≤ wgt idfF docs d t :=
  mul_nonneg (Nat.cast_nonneg _) (le_of_lt (hidf _ _))

theorem wgt_pos {K : Type} [LinearOrderedField K] {idfF : ℕ → ℕ → K}
    (hidf : ∀ n d, 0 < idfF n d) (docs : List Str) {d t : Str}
    (ht : t ∈ tokenize d) : 0 < wgt idfF docs d t := by
  apply mul_pos _ (hidf _ _)
  exact_mod_cast List.count_pos_iff.2 ht

theorem mem_vocab_of_token {docs : List Str} {d t : Str} (hd : d ∈ docs)
    (ht : t ∈ tokenize d) : t ∈ vocab docs := by
  unfold vocab
  rw [List.mem_toFinset, List.mem_flatten]
  exact ⟨tokenize d, List.mem_map.2 ⟨d, hd, rfl⟩, ht⟩

/-- C4 counterexample: two non-empty lists whose documents contain no
token (no run of two word characters): `fit_transform` raises "empty
vocabulary", so no similarity matrix is returned at all. -/
theorem C4_counterexample :
    compare_rules_pdc (K := ℚ) (fun _ _ => 1) [( ".").data] [( ".").data] =
      Except.error
        ( "empty vocabulary; perhaps the documents only contain stop words").data
      ∧ ([( ".").data] : List Str) ≠ [] := by
  refine ⟨by rfl, by decide⟩

/-- C4 (amended): provided at least one document yields a token, the
matcher returns the `R × P` matrix of cosine-similarity entries, every
entry lies in `[0,1]`, and a rule identical in wording to a control point
gets entry 1 provided that document itself has a token (a token-free
document gets the zero vector, hence similarity 0). -/
theorem C4_matcher_amended {K : Type} [LinearOrderedField K]
    (idfF : ℕ → ℕ → K) (hidf : ∀ n d, 0 < idfF n d)
    (rules pdc_list : List Str) (hr : rules ≠ []) (hp : pdc_list ≠ [])
    (hvoc : vocab (rules ++ pdc_list) ≠ ∅) :
    compare_rules_pdc idfF rules pdc_list =
      Except.ok (rules.map (fun r =>
        pdc_list.map (fun p => simTriple idfF (rules ++ pdc_list) r p))) ∧
    (rules.map (fun r =>
        pdc_list.map (fun p => simTriple idfF (rules ++ pdc_list) r p))).length
      = rules.length ∧
    (∀ row ∈ rules.map (fun r =>
        pdc_list.map (fun p => simTriple idfF (rules ++ pdc_list) r p)),
      row.length = pdc_list.length) ∧
    (∀ r ∈ rules, ∀ p ∈ pdc_list,
      entryIn01 (simTriple idfF (rules ++ pdc_list) r p)) ∧
    (∀ r ∈ rules, ∀ p ∈ pdc_list, r = p → tokenize r ≠ [] →
      entryEqOne (simTriple idfF (rules ++ pdc_list) r p)) := by
  refine ⟨?_, List.length_map _ _, ?_, ?_, ?_⟩
  · unfold compare_rules_pdc
    rw [if_neg hvoc,
      if_neg (fun h => hr (List.length_eq_zero.mp h)),
      if_neg (fun h => hp (List.length_eq_zero.mp h))]
  · intro row hrow
    rcases List.mem_map.1 hrow with ⟨r, _, hrw⟩
    rw [← hrw]
    exact List.length_map _ _
  · intro r _ p _
    simp only [entryIn01, simTriple]
    constructor
    · exact Finset.sum_nonneg fun t _ =>
        mul_nonneg (wgt_nonneg hidf _ _ _) (wgt_nonneg hidf _ _ _)
    · exact Finset.sum_mul_sq_le_sq_mul_sq _ _ _
  · intro r hrm p _ hrp htok
    subst hrp
    simp only [entryEqOne, simTriple]
    have hsum : (∑ t ∈ vocab (rules ++ pdc_list),
        wgt idfF (rules ++ pdc_list) r t * wgt idfF (rules ++ pdc_list) r t) =
        ∑ t ∈ vocab (rules ++ pdc_list), wgt idfF (rules ++ pdc_list) r t ^ 2 :=
      Finset.sum_congr rfl fun t _ =>
        (pow_two (wgt idfF (rules ++ pdc_list) r t)).symm
    constructor
    · rcases List.exists_mem_of_ne_nil _ htok with ⟨t0, ht0⟩
      apply Finset.sum_pos'
      · exact fun t _ => mul_self_nonneg _
      · exact ⟨t0, mem_vocab_of_token (List.mem_append_left _ hrm) ht0,
          mul_pos (wgt_pos hidf _ ht0) (wgt_pos hidf _ ht0)⟩
    · rw [hsum, pow_two]

/-- C4 witness: the amended matcher theorem at a concrete corpus of one
rule identical to one control point. -/
theorem C4_matcher_witness :
    entryIn01 (simTriple (K := ℚ) (fun _ _ => 1)
        ([( "aa bb.").data] ++ [( "aa bb.").data])
        ( "aa bb.").data ( "aa bb.").data) ∧
    entryEqOne (simTriple (K := ℚ) (fun _ _ => 1)
        ([( "aa bb.").data] ++ [( "aa bb.").data])
        ( "aa bb.").data ( "aa bb.").data) := by
  have h := C4_matcher_amended (K := ℚ) (fun _ _ => 1) (fun _ _ => one_pos)
    [( "aa bb.").data] [( "aa bb.").data] (by decide) (by decide) (by decide)
  exact ⟨h.2.2.2.1 _ (by decide) _ (by decide),
    h.2.2.2.2 _ (by decide) _ (by decide) rfl (by decide)⟩

end CdcApp
